import Mathlib

/-!
Verification of the knime2py conversion pipeline.

The development shallowly embeds the CLI driver (`src/knime2py/cli.py`) and the
core graph pipeline it drives.  The CLI driver is translated from the source.
The core pipeline modules (`parse_knime`, `emitters`) are not part of the
available sources; their data model and operations are modelled from the
specification (each such definition carries a doc comment saying so).
Machine integers do not overflow in any modelled code path, so node
identifiers are plain `Nat` and no modular arithmetic is required.
-/

/-! ## Data model (GraphBuilder / WorkflowGraph) -/

/-- Modelled from the spec: block state of a generated code block,
one of OK / IDLE / ERROR (spec section 3, CodeBlock). -/
inductive BState where
  | OK
  | IDLE
  | ERROR
deriving Repr, DecidableEq, BEq

/-- Modelled from the spec: a workflow node — identifier, display title,
opaque type identifier, opaque configuration payload (spec section 3). -/
structure Node where
  id : Nat
  title : String
  typeId : String
  config : List (String × String)
deriving Repr, DecidableEq

/-- Modelled from the spec: a directed edge between node ports
(spec section 3). -/
structure Edge where
  src : Nat
  srcPort : Nat
  tgt : Nat
  tgtPort : Nat
deriving Repr, DecidableEq

/-- Modelled from the spec: a workflow graph — graph identifier, mapping of
node identifier to node (an ordered association list), ordered edge sequence
(spec section 3).  The field names follow the attributes the CLI reads
(`g.workflow_id`, `g.nodes`, `g.edges`). -/
structure WorkflowGraph where
  workflow_id : String
  nodes : List (Nat × Node)
  edges : List Edge
deriving Repr, DecidableEq

/-- The node identifiers of a graph, in mapping order. -/
def nodeIds (g : WorkflowGraph) : List Nat := g.nodes.map Prod.fst

/-- The WorkflowGraph invariant of spec section 3: node identifiers are
unique and every edge references identifiers present in the node mapping. -/
def WellFormed (g : WorkflowGraph) : Prop :=
  (nodeIds g).Nodup ∧ ∀ e ∈ g.edges, e.src ∈ nodeIds g ∧ e.tgt ∈ nodeIds g

instance (g : WorkflowGraph) : Decidable (WellFormed g) := by
  unfold WellFormed; infer_instance

/-- Modelled from the spec: the error taxonomy for graph construction
(spec section 7, ParseError). -/
inductive ParseError where
  | missingField
  | duplicateNode
  | danglingEdge
deriving Repr, DecidableEq

/-- Modelled from the spec: cyclic-component error (spec section 7). -/
inductive CyclicGraphError where
  | cyclic
deriving Repr, DecidableEq

/-- Modelled from the spec: a raw node record as handed over by the Raw
Loader; required structural fields may be absent (spec sections 4.1, 6). -/
structure RawNode where
  id : Option Nat
  title : Option String
  typeId : Option String
  config : List (String × String)
deriving Repr, DecidableEq

/-- Modelled from the spec: a raw connection record as handed over by the Raw
Loader; required structural fields may be absent (spec sections 4.1, 6). -/
structure RawEdge where
  source : Option Nat
  sourcePort : Option Nat
  dest : Option Nat
  destPort : Option Nat
deriving Repr, DecidableEq

/-- Modelled from the spec: the raw input of GraphBuilder — a sequence of raw
node records and raw edge records (spec section 6). -/
structure RawInput where
  workflow_id : String
  nodes : List RawNode
  edges : List RawEdge
deriving Repr, DecidableEq

/-- Modelled from the spec: validate one raw node record; absent required
structural fields yield ParseError (spec section 4.1). -/
def extractNode (rn : RawNode) : Except ParseError (Nat × Node) :=
  match rn.id, rn.title, rn.typeId with
  | some i, some t, some ty => .ok (i, ⟨i, t, ty, rn.config⟩)
  | _, _, _ => .error .missingField

/-- Modelled from the spec: validate all raw node records in order. -/
def extractNodes : List RawNode → Except ParseError (List (Nat × Node))
  | [] => .ok []
  | n :: ns =>
    match extractNode n, extractNodes ns with
    | .ok p, .ok ps => .ok (p :: ps)
    | .error e, _ => .error e
    | .ok _, .error e => .error e

/-- Modelled from the spec: validate one raw connection record. -/
def extractEdge (re : RawEdge) : Except ParseError Edge :=
  match re.source, re.sourcePort, re.dest, re.destPort with
  | some s, some sp, some t, some tp => .ok ⟨s, sp, t, tp⟩
  | _, _, _, _ => .error .missingField

/-- Modelled from the spec: validate all raw connection records in order. -/
def extractEdges : List RawEdge → Except ParseError (List Edge)
  | [] => .ok []
  | e :: es =>
    match extractEdge e, extractEdges es with
    | .ok p, .ok ps => .ok (p :: ps)
    | .error err, _ => .error err
    | .ok _, .error err => .error err

/-- Modelled from the spec: GraphBuilder, `build(raw records) → WorkflowGraph`.
Fails with ParseError if a node identifier repeats, an edge references a
missing node identifier, or required structural fields are absent
(spec section 4.1). -/
def build (r : RawInput) : Except ParseError WorkflowGraph :=
  match extractNodes r.nodes with
  | .error e => .error e
  | .ok ns =>
    if (ns.map Prod.fst).Nodup then
      match extractEdges r.edges with
      | .error e => .error e
      | .ok es =>
        if es.all (fun e => decide (e.src ∈ ns.map Prod.fst) &&
            decide (e.tgt ∈ ns.map Prod.fst)) then
          .ok { workflow_id := r.workflow_id, nodes := ns, edges := es }
        else .error .danglingEdge
    else .error .duplicateNode

/-! ## Orderer (Kahn's algorithm with ascending-identifier tie-break) -/

/-- The minimum element of a list of naturals, if any. -/
def pickMin : List Nat → Option Nat
  | [] => none
  | x :: xs =>
    match pickMin xs with
    | none => some x
    | some m => some (min x m)

/-- Whether node `v` has an incoming dependency edge whose source is still
among the remaining nodes. -/
def hasIncoming (E : List Edge) (remaining : List Nat) (v : Nat) : Bool :=
  E.any (fun e => (e.tgt == v) && decide (e.src ∈ remaining))

/-- Modelled from the spec: among the remaining nodes, pick the eligible
(zero remaining in-degree) node with the smallest identifier
(spec section 4.3, tie-break rule). -/
def kahnPick (E : List Edge) (remaining : List Nat) : Option Nat :=
  pickMin (remaining.filter (fun v => !hasIncoming E remaining v))

/-- Modelled from the spec: Kahn's algorithm — repeatedly remove the
smallest-identifier node with zero remaining in-degree; if none exists while
nodes remain, the component is cyclic (spec section 4.3).  The fuel argument
equals the number of remaining nodes at the top-level call. -/
def kahn (E : List Edge) : Nat → List Nat → Except CyclicGraphError (List Nat)
  | 0, remaining => if remaining.isEmpty then .ok [] else .error .cyclic
  | fuel + 1, remaining =>
    if remaining.isEmpty then .ok []
    else
      match kahnPick E remaining with
      | none => .error .cyclic
      | some v => (kahn E fuel (remaining.erase v)).map (fun l => v :: l)

/-- Modelled from the spec: the Orderer contract,
`order(component) → sequence of node identifiers` (spec section 4.3). -/
def order (g : WorkflowGraph) : Except CyclicGraphError (List Nat) :=
  kahn g.edges (nodeIds g).length (nodeIds g)

instance {ε α : Type} [DecidableEq ε] [DecidableEq α] : DecidableEq (Except ε α) := fun x y =>
  match x, y with
  | .ok a, .ok b =>
    if h : a = b then .isTrue (by rw [h])
    else .isFalse (fun hc => h (Except.ok.inj hc))
  | .error a, .error b =>
    if h : a = b then .isTrue (by rw [h])
    else .isFalse (fun hc => h (Except.error.inj hc))
  | .ok _, .error _ => .isFalse (fun hc => Except.noConfusion hc)
  | .error _, .ok _ => .isFalse (fun hc => Except.noConfusion hc)

/-- One directed dependency step along an edge of the edge list. -/
def EdgeStep (E : List Edge) (a b : Nat) : Prop :=
  ∃ e ∈ E, e.src = a ∧ e.tgt = b

/-- The dependency edges contain a cycle: a nonempty closed walk along
directed edges. -/
def HasCycle (E : List Edge) : Prop :=
  ∃ v l, l ≠ [] ∧ l.getLast? = some v ∧ List.Chain (EdgeStep E) v l

/-! ## ComponentIsolator -/

/-- Undirected adjacency over the edge list: an edge joins `a` and `b` in
either direction (spec section 4.2, undirected projection). -/
def adjB (E : List Edge) (a b : Nat) : Bool :=
  E.any (fun e => (e.src == a && e.tgt == b) || (e.src == b && e.tgt == a))

/-- One step of the undirected projection between nodes of the graph. -/
def AdjStep (g : WorkflowGraph) (a b : Nat) : Prop :=
  a ∈ nodeIds g ∧ b ∈ nodeIds g ∧ adjB g.edges a b = true

/-- Connectivity in the undirected projection: the reflexive-transitive
closure of `AdjStep`. -/
def Reach (g : WorkflowGraph) (a b : Nat) : Prop :=
  Relation.ReflTransGen (AdjStep g) a b

/-- One frontier-expansion step of the component traversal: append every
not-yet-collected node of the graph adjacent to the collected set. -/
def expandOnce (g : WorkflowGraph) (s : List Nat) : List Nat :=
  s ++ (nodeIds g).filter
    (fun v => !(decide (v ∈ s)) && s.any (fun u => adjB g.edges u v))

/-- Iterated frontier expansion with explicit fuel. -/
def reachAux (g : WorkflowGraph) : Nat → List Nat → List Nat
  | 0, s => s
  | n + 1, s => reachAux g n (expandOnce g s)

/-- Modelled from the spec: the weakly-connected component of node `v`,
computed by breadth-first traversal of the undirected projection
(spec section 4.2).  Fuel equal to the node count reaches the fixpoint. -/
def component (g : WorkflowGraph) (v : Nat) : List Nat :=
  reachAux g (nodeIds g).length [v]

/-- Node identifiers in ascending order. -/
def sortIds (l : List Nat) : List Nat := List.insertionSort (· ≤ ·) l

/-- Scan the node identifiers in ascending order, emitting the component of
each identifier not yet visited (spec section 4.2: traversal from each
unvisited node; deterministic component order by ascending smallest
identifier). -/
def isolateGo (g : WorkflowGraph) : List Nat → List Nat → List (List Nat)
  | [], _ => []
  | v :: rest, visited =>
    if v ∈ visited then isolateGo g rest visited
    else component g v :: isolateGo g rest (visited ++ component g v)

/-- The node-identifier sets of the components, in emission order. -/
def componentIds (g : WorkflowGraph) : List (List Nat) :=
  isolateGo g (sortIds (nodeIds g)) []

/-- The sub-WorkflowGraph induced by a set of node identifiers: the node
mapping and edge sequence restricted to it. -/
def subgraph (g : WorkflowGraph) (ids : List Nat) : WorkflowGraph :=
  { workflow_id := g.workflow_id
    nodes := g.nodes.filter (fun p => decide (p.1 ∈ ids))
    edges := g.edges.filter
      (fun e => decide (e.src ∈ ids) && decide (e.tgt ∈ ids)) }

/-- Modelled from the spec: ComponentIsolator,
`isolate(graph) → sequence of WorkflowGraph` (spec section 4.2). -/
def isolate (g : WorkflowGraph) : List WorkflowGraph :=
  (componentIds g).map (subgraph g)

/-- The smallest node identifier of a graph (0 for an empty graph); used to
state the deterministic component ordering. -/
def minId (g : WorkflowGraph) : Nat := (pickMin (nodeIds g)).getD 0

/-! ## NodeCodeResolver and BlockAssembler -/

/-- Modelled from the spec: one generated code block (spec section 3,
CodeBlock).  Field names follow the attributes the CLI reads
(`b.nid`, `b.title`, `b.state`, `b.not_implemented`). -/
structure CodeBlock where
  nid : Nat
  title : String
  source : String
  state : BState
  not_implemented : Bool
  imports : List String
deriving Repr, DecidableEq

/-- Modelled from the spec: a code-generation strategy — a capability
`generate(configuration) → source, imports` that may fail on a malformed
configuration payload (spec sections 4.4, 9). -/
structure Strategy where
  gen : List (String × String) → Except String (String × List String)

/-- Modelled from the spec: the read-only registry mapping type identifiers
to strategies (spec section 4.4). -/
def lookupStrategy (reg : List (String × Strategy)) (t : String) :
    Option Strategy :=
  (reg.find? (fun p => p.1 == t)).map Prod.snd

/-- Modelled from the spec: NodeCodeResolver resolution policy
(spec section 4.4): registered and succeeding → OK; registered but failing →
ERROR placeholder; unregistered → IDLE placeholder with the not-implemented
flag set and empty imports.  Total: every node yields exactly one block. -/
def resolve (reg : List (String × Strategy)) (n : Node) : CodeBlock :=
  match lookupStrategy reg n.typeId with
  | none =>
    { nid := n.id, title := n.title
      source := ("# not implemented: ") ++ n.typeId
      state := .IDLE, not_implemented := true, imports := [] }
  | some s =>
    match s.gen n.config with
    | .ok (src, imps) =>
      { nid := n.id, title := n.title, source := src
        state := .OK, not_implemented := false, imports := imps }
    | .error msg =>
      { nid := n.id, title := n.title
        source := ("# generation failed: ") ++ msg
        state := .ERROR, not_implemented := false, imports := [] }

/-- First-occurrence deduplication with an accumulator of already-seen
elements. -/
def dedupFAux {α : Type} [DecidableEq α] : List α → List α → List α
  | _, [] => []
  | seen, x :: xs =>
    if x ∈ seen then dedupFAux seen xs
    else x :: dedupFAux (x :: seen) xs

/-- First-occurrence deduplication: keeps the first use of each element and
drops later duplicates (spec section 4.5, import merging). -/
def dedupF {α : Type} [DecidableEq α] (l : List α) : List α :=
  dedupFAux [] l

/-- Look up a node by identifier in the graph's node mapping. -/
def lookupNode (g : WorkflowGraph) (i : Nat) : Option Node :=
  (g.nodes.find? (fun p => p.1 == i)).map Prod.snd

/-- Modelled from the spec: the Assembly Result — ordered block sequence,
deduplicated imports, summary counts (spec section 3). -/
structure AssemblyResult where
  blocks : List CodeBlock
  imports : List String
  total : Nat
  idleCount : Nat
  errorCount : Nat
deriving Repr, DecidableEq

/-- Modelled from the spec: BlockAssembler, `assemble(component) → Assembly
Result` — obtain the node order from the Orderer, resolve one block per node
in that order, merge imports first-use-deduplicated, compute summary counts
(spec section 4.5). -/
def assemble (reg : List (String × Strategy)) (g : WorkflowGraph) :
    Except CyclicGraphError AssemblyResult :=
  match order g with
  | .error e => .error e
  | .ok ids =>
    let blocks := ids.filterMap (fun i => (lookupNode g i).map (resolve reg))
    .ok { blocks := blocks
          imports := dedupF ((blocks.map CodeBlock.imports).flatten)
          total := blocks.length
          idleCount := blocks.countP (fun b => b.state == BState.IDLE)
          errorCount := blocks.countP (fun b => b.state == BState.ERROR) }

/-- Whether an Except value is a success. -/
def exceptOk {ε α : Type} : Except ε α → Bool
  | .ok _ => true
  | .error _ => false

/-! ## CLI driver (embedding of src/knime2py/cli.py) -/

/-- A filesystem path, as its reversed component list: the head is the final
name, the tail is the parent directory.  Paths are taken to be already
expanded and resolved (`expanduser`/`resolve` are modelled as the
identity on these abstract absolute paths). -/
abbrev FPath := List String

/-- The final name of a path (`p.name`); the empty path has no name. -/
def pname : FPath → String
  | [] => ""
  | c :: _ => c

/-- Render a path as text, for diagnostic messages. -/
def pathStr (p : FPath) : String := String.intercalate ("/") p.reverse

/-- One filesystem entry: its path and whether it is a regular file. -/
structure FSEntry where
  path : FPath
  isFile : Bool
deriving Repr, DecidableEq

/-- A static snapshot of the filesystem visible to the CLI. -/
structure FS where
  entries : List FSEntry
deriving Repr, DecidableEq

/-- `Path.exists()` over the snapshot. -/
def FS.existsP (fs : FS) (p : FPath) : Bool :=
  fs.entries.any (fun e => e.path == p)

/-- `Path.is_file()` over the snapshot. -/
def FS.isFileP (fs : FS) (p : FPath) : Bool :=
  fs.entries.any (fun e => e.path == p && e.isFile)

/-- Embeds `_resolve_single_workflow` (cli.py lines 93-128): a file argument
must be named workflow.knime; a non-file argument must directly contain
workflow.knime; otherwise SystemExit(2) with a diagnostic on stderr, modelled
as `Except.error (2, message)`. -/
def resolveSingleWorkflow (fs : FS) (p : FPath) : Except (Nat × String) FPath :=
  if fs.existsP p = false then
    .error (2, ("Path does not exist: ") ++ pathStr p)
  else if fs.isFileP p then
    if pname p ≠ "workflow.knime" then
      .error (2, ("Not a workflow.knime file: ") ++ pathStr p)
    else .ok p
  else
    if fs.existsP ("workflow.knime" :: p) &&
        fs.isFileP ("workflow.knime" :: p) then
      .ok ("workflow.knime" :: p)
    else
      .error (2, ("No workflow.knime found in directory: ") ++ pathStr p)

/-- Embeds `root_path.rglob('workflow.knime')` inside
`_resolve_metanode_paths` (cli.py line 89): every entry strictly below the
root directory whose final name matches the pattern, in filesystem
enumeration order. -/
def rglobMatches (fs : FS) (d : FPath) (pat : String) : List FPath :=
  (fs.entries.map FSEntry.path).filter
    (fun q => decide (d <:+ q) && decide (q ≠ d) && (pname q == pat))

/-- The semantics of Python's `list({...})` in `_resolve_metanode_paths`
(cli.py line 89): the resulting list holds each distinct match exactly once,
in an order the language leaves unspecified (set iteration order).  A run of
the program corresponds to one enumeration function satisfying this
predicate on the match list it is applied to. -/
def IsSetEnum {α : Type} (ms out : List α) : Prop :=
  out.Nodup ∧ (∀ x ∈ out, x ∈ ms) ∧ ∀ x ∈ ms, x ∈ out

/-- Modelled from the spec: `parse_workflow_components` (imported by cli.py
from the missing `parse_knime` module) — Raw Loader, GraphBuilder and
ComponentIsolator composed: one WorkflowGraph per isolated component, parse
failures raised (spec sections 2, 4.1, 4.2).  The Raw Loader is an oracle
`load` from paths to raw records. -/
def parseWorkflowComponents (load : FPath → RawInput) (wf : FPath) :
    Except ParseError (List WorkflowGraph) :=
  (build (load wf)).map isolate

/-- Modelled from the spec: `build_workbook_blocks` (imported by cli.py from
the missing `emitters` module) — the BlockAssembler's blocks and imports for
one component (spec section 4.5); totalized with an empty result on a cyclic
component, a case no claim exercises through this entry point. -/
def buildWorkbookBlocks (reg : List (String × Strategy)) (g : WorkflowGraph) :
    List CodeBlock × List String :=
  match assemble reg g with
  | .ok r => (r.blocks, r.imports)
  | .error _ => ([], [])

/-- The per-component summary record convert_path accumulates
(cli.py lines 247-260), restricted to the fields the claims observe. -/
structure ComponentSummary where
  workflow_id : String
  nodes : Nat
  edges : Nat
  idle : Nat
deriving Repr, DecidableEq

/-- Builds one ComponentSummary exactly as the body of the loop in
convert_path does (cli.py lines 207-260): the idle count is the number of
blocks whose state is IDLE. -/
def summarize (bwb : WorkflowGraph → List CodeBlock × List String)
    (g : WorkflowGraph) : ComponentSummary :=
  { workflow_id := g.workflow_id
    nodes := g.nodes.length
    edges := g.edges.length
    idle := (bwb g).1.countP (fun b => b.state == BState.IDLE) }

/-- The observable outcome of one convert_path call: the returned value
(convert_path returns 3, 4 or falls through returning None), the summaries
accumulated for the components, and the stderr messages printed. -/
structure ConvertResult where
  code : Option Nat
  summaries : List ComponentSummary
  messages : List String
deriving Repr, DecidableEq

/-- Embeds `convert_path` (cli.py lines 194-267).  A parse exception is
caught, reported, and ends work on this input with return value 3; a root
workflow with zero components is reported with return value 4; otherwise the
components are each summarized and the function falls through (None). -/
def convertPath (bwb : WorkflowGraph → List CodeBlock × List String)
    (parse : FPath → Except ParseError (List WorkflowGraph))
    (isRoot : Bool) (wf : FPath) : ConvertResult :=
  match parse wf with
  | .error _ =>
    { code := some 3, summaries := []
      messages := [("ERROR parsing ") ++ pathStr wf] }
  | .ok graphs =>
    if graphs.isEmpty && isRoot then
      { code := some 4, summaries := []
        messages := [("No nodes/edges found in workflow: ") ++ pathStr wf] }
    else
      { code := none, summaries := graphs.map (summarize bwb), messages := [] }

/-- Embeds `run_cli` (cli.py lines 131-192) over a filesystem snapshot.
`enum` is the set-enumeration of the current run (see `IsSetEnum`); the
external collaborators `bwb` and `parse` are injected.  The result records,
per processed workflow path in processing order, the outcome of its
convert_path call, whose return value run_cli discards; run_cli itself
returns 0.  A SystemExit raised by path resolution propagates as
`Except.error code`. -/
def runCli (enum : List FPath → List FPath)
    (bwb : WorkflowGraph → List CodeBlock × List String)
    (parse : FPath → Except ParseError (List WorkflowGraph))
    (fs : FS) (argPath : FPath) :
    Except Nat (Nat × List (FPath × ConvertResult)) :=
  match resolveSingleWorkflow fs argPath with
  | .error (c, _) => .error c
  | .ok wfRootFile =>
    let wfPaths := enum (rglobMatches fs wfRootFile.tail ("workflow.knime"))
    .ok (0, wfPaths.map
      (fun wf => (wf, convertPath bwb parse (decide (wfRootFile = wf)) wf)))

/-- Embeds `main` (cli.py lines 269-278): the process exit status — the code
of an uncaught SystemExit, else run_cli's return value if non-zero via
`sys.exit(code)`, else 0 on normal return. -/
def mainExitCode (res : Except Nat (Nat × List (FPath × ConvertResult))) :
    Nat :=
  match res with
  | .error c => c
  | .ok (code, _) => code

/-! ## Lemmas about `pickMin` -/

theorem pickMin_eq_none {l : List Nat} : pickMin l = none ↔ l = [] := by
  induction l with
  | nil => simp [pickMin]
  | cons x xs ih =>
    simp only [pickMin]
    cases h : pickMin xs <;> simp

theorem pickMin_mem {l : List Nat} {m : Nat} (h : pickMin l = some m) :
    m ∈ l := by
  induction l generalizing m with
  | nil => simp [pickMin] at h
  | cons x xs ih =>
    simp only [pickMin] at h
    cases hx : pickMin xs with
    | none => rw [hx] at h; simp at h; simp [h]
    | some m' =>
      rw [hx] at h
      simp at h
      rcases Nat.le_total x m' with hle | hle
      · rw [Nat.min_eq_left hle] at h; simp [h]
      · rw [Nat.min_eq_right hle] at h
        subst h
        exact List.mem_cons_of_mem _ (ih hx)

theorem pickMin_le {l : List Nat} {m : Nat} (h : pickMin l = some m) :
    ∀ x ∈ l, m ≤ x := by
  induction l generalizing m with
  | nil => simp
  | cons x xs ih =>
    simp only [pickMin] at h
    intro y hy
    cases hx : pickMin xs with
    | none =>
      rw [hx] at h; simp at h
      have : xs = [] := pickMin_eq_none.mp hx
      subst this
      simp at hy
      subst hy; subst h; exact Nat.le_refl _
    | some m' =>
      rw [hx] at h; simp at h
      subst h
      rcases List.mem_cons.mp hy with rfl | hmem
      · exact Nat.min_le_left _ _
      · exact Nat.le_trans (Nat.min_le_right _ _) (ih hx _ hmem)

theorem pickMin_eq_some_of {l : List Nat} {m : Nat} (hm : m ∈ l)
    (hle : ∀ x ∈ l, m ≤ x) : pickMin l = some m := by
  induction l with
  | nil => simp at hm
  | cons x xs ih =>
    simp only [pickMin]
    cases hx : pickMin xs with
    | none =>
      have : xs = [] := pickMin_eq_none.mp hx
      subst this
      simp at hm
      simp [hm]
    | some m' =>
      have hm'xs : m' ∈ xs := pickMin_mem hx
      rcases List.mem_cons.mp hm with rfl | hmem
      · have h1 : m ≤ m' := hle _ (List.mem_cons_of_mem _ hm'xs)
        simp [Nat.min_eq_left h1]
      · have h2 : pickMin xs = some m :=
          ih hmem (fun y hy => hle y (List.mem_cons_of_mem _ hy))
        rw [hx] at h2
        injection h2 with h3
        rw [← h3]
        rw [← h3] at hle
        have h4 := hle x (List.mem_cons_self _ _)
        simp [Nat.min_eq_right h4]

theorem pickMin_congr {l l' : List Nat} (h : ∀ x, x ∈ l ↔ x ∈ l') :
    pickMin l = pickMin l' := by
  cases hl : pickMin l with
  | none =>
    have : l = [] := pickMin_eq_none.mp hl
    subst this
    have : l' = [] := by
      apply List.eq_nil_iff_forall_not_mem.mpr
      intro a ha
      exact absurd ((h a).mpr ha) (List.not_mem_nil a)
    simp [this, pickMin]
  | some m =>
    exact (pickMin_eq_some_of ((h m).mp (pickMin_mem hl))
      (fun x hx => pickMin_le hl x ((h x).mpr hx))).symm

/-! ## Lemmas about the Orderer -/

theorem hasIncoming_eq_false_iff {E : List Edge} {R : List Nat} {v : Nat} :
    hasIncoming E R v = false ↔ ∀ e ∈ E, e.tgt = v → e.src ∉ R := by
  simp only [hasIncoming]
  rw [← Bool.not_eq_true, List.any_eq_true]
  constructor
  · intro h e he htgt hsrc
    exact h ⟨e, he, by simp [htgt, hsrc]⟩
  · rintro h ⟨e, he, hp⟩
    simp only [Bool.and_eq_true, beq_iff_eq, decide_eq_true_eq] at hp
    exact h e he hp.1 hp.2

theorem kahnPick_some {E : List Edge} {R : List Nat} {v : Nat}
    (h : kahnPick E R = some v) :
    v ∈ R ∧ hasIncoming E R v = false := by
  have hmem := pickMin_mem h
  rw [List.mem_filter] at hmem
  exact ⟨hmem.1, by simpa using hmem.2⟩

theorem kahnPick_none {E : List Edge} {R : List Nat}
    (h : kahnPick E R = none) : ∀ v ∈ R, hasIncoming E R v = true := by
  intro v hv
  have := pickMin_eq_none.mp h
  rw [List.filter_eq_nil_iff] at this
  have := this v hv
  simpa using this

theorem kahn_perm {E : List Edge} :
    ∀ (fuel : Nat) (R l : List Nat), kahn E fuel R = .ok l → l.Perm R := by
  intro fuel
  induction fuel with
  | zero =>
    intro R l h
    simp only [kahn] at h
    by_cases hR : R.isEmpty
    · rw [if_pos hR] at h
      injection h with h'
      subst h'
      rw [List.isEmpty_iff] at hR
      subst hR
      exact List.Perm.refl _
    · rw [if_neg hR] at h; exact absurd h (by simp)
  | succ fuel ih =>
    intro R l h
    simp only [kahn] at h
    by_cases hR : R.isEmpty
    · rw [if_pos hR] at h
      injection h with h'
      subst h'
      rw [List.isEmpty_iff] at hR
      subst hR
      exact List.Perm.refl _
    · rw [if_neg hR] at h
      cases hp : kahnPick E R with
      | none => rw [hp] at h; exact absurd h (by simp)
      | some v =>
        rw [hp] at h
        dsimp only at h
        cases hrec : kahn E fuel (R.erase v) with
        | error e => rw [hrec] at h; exact absurd h (by simp [Except.map])
        | ok l' =>
          rw [hrec] at h
          simp only [Except.map] at h
          injection h with h'
          subst h'
          have hv := (kahnPick_some hp).1
          exact ((ih _ _ hrec).cons v).trans (List.perm_cons_erase hv).symm

theorem kahn_topo {E : List Edge} :
    ∀ (fuel : Nat) (R l : List Nat), kahn E fuel R = .ok l →
    ∀ e ∈ E, e.src ∈ R → e.tgt ∈ R →
    List.indexOf e.src l < List.indexOf e.tgt l := by
  intro fuel
  induction fuel with
  | zero =>
    intro R l h e _ hsrc _
    simp only [kahn] at h
    by_cases hR : R.isEmpty
    · rw [List.isEmpty_iff] at hR; subst hR; simp at hsrc
    · rw [if_neg hR] at h; exact absurd h (by simp)
  | succ fuel ih =>
    intro R l h e he hsrc htgt
    simp only [kahn] at h
    by_cases hR : R.isEmpty
    · rw [List.isEmpty_iff] at hR; subst hR; simp at hsrc
    · rw [if_neg hR] at h
      cases hp : kahnPick E R with
      | none => rw [hp] at h; exact absurd h (by simp)
      | some v =>
        rw [hp] at h
        dsimp only at h
        cases hrec : kahn E fuel (R.erase v) with
        | error err => rw [hrec] at h; exact absurd h (by simp [Except.map])
        | ok l' =>
          rw [hrec] at h
          simp only [Except.map] at h
          injection h with h'
          subst h'
          have hveli := (kahnPick_some hp).2
          rw [hasIncoming_eq_false_iff] at hveli
          have htgtne : e.tgt ≠ v := by
            intro hc
            exact hveli e he hc hsrc
          by_cases hsrcv : e.src = v
          · rw [hsrcv, List.indexOf_cons_self]
            rw [List.indexOf_cons_ne _ (Ne.symm htgtne)]
            exact Nat.succ_pos _
          · rw [List.indexOf_cons_ne _ (Ne.symm hsrcv),
              List.indexOf_cons_ne _ (Ne.symm htgtne)]
            have hsrc' : e.src ∈ R.erase v :=
              (List.mem_erase_of_ne hsrcv).mpr hsrc
            have htgt' : e.tgt ∈ R.erase v :=
              (List.mem_erase_of_ne htgtne).mpr htgt
            exact Nat.succ_lt_succ (ih _ _ hrec e he hsrc' htgt')

theorem order_perm {g : WorkflowGraph} {l : List Nat}
    (h : order g = .ok l) : l.Perm (nodeIds g) :=
  kahn_perm _ _ _ h

theorem order_topo {g : WorkflowGraph} {l : List Nat} (h : order g = .ok l)
    (hwf : WellFormed g) :
    ∀ e ∈ g.edges, List.indexOf e.src l < List.indexOf e.tgt l := by
  intro e he
  exact kahn_topo _ _ _ h e he (hwf.2 e he).1 (hwf.2 e he).2

theorem chain_indexOf_lt {g : WorkflowGraph} {l : List Nat}
    (h : order g = .ok l) (hwf : WellFormed g) :
    ∀ (bs : List Nat) (a b : Nat), List.Chain (EdgeStep g.edges) a bs →
    bs.getLast? = some b → List.indexOf a l < List.indexOf b l := by
  intro bs
  induction bs with
  | nil => intro a b _ hlast; simp at hlast
  | cons c bs' ih =>
    intro a b hchain hlast
    rcases List.chain_cons.mp hchain with ⟨hstep, hchain'⟩
    rcases hstep with ⟨e, he, hesrc, hetgt⟩
    have hac : List.indexOf a l < List.indexOf c l := by
      have := order_topo h hwf e he
      rwa [hesrc, hetgt] at this
    cases bs' with
    | nil =>
      simp at hlast
      subst hlast
      exact hac
    | cons d bs'' =>
      rw [List.getLast?_cons_cons] at hlast
      exact Nat.lt_trans hac (ih c b hchain' hlast)

/-- An acyclicity certificate: a successfully ordered well-formed graph has
no cycle among its dependency edges. -/
theorem not_hasCycle_of_order_ok {g : WorkflowGraph} {l : List Nat}
    (h : order g = .ok l) (hwf : WellFormed g) : ¬ HasCycle g.edges := by
  rintro ⟨v, walk, hne, hlast, hchain⟩
  exact Nat.lt_irrefl _ (chain_indexOf_lt h hwf walk v v hchain hlast)

theorem find?_some_of_exists {α : Type} {p : α → Bool} {l : List α}
    (h : ∃ x ∈ l, p x = true) :
    ∃ a, l.find? p = some a ∧ p a = true := by
  induction l with
  | nil => simp at h
  | cons x xs ih =>
    by_cases hx : p x = true
    · exact ⟨x, by simp [List.find?, hx], hx⟩
    · rcases h with ⟨y, hy, hpy⟩
      rcases List.mem_cons.mp hy with rfl | hmem
      · exact absurd hpy hx
      · rcases ih ⟨y, hmem, hpy⟩ with ⟨a, ha, hpa⟩
        refine ⟨a, ?_, hpa⟩
        simp [List.find?, Bool.of_not_eq_true hx, ha]

theorem kahn_error_all_incoming {E : List Edge} :
    ∀ (fuel : Nat) (R : List Nat) (c : CyclicGraphError),
    R.length ≤ fuel → kahn E fuel R = .error c →
    ∃ R', R' ≠ [] ∧ ∀ v ∈ R', hasIncoming E R' v = true := by
  intro fuel
  induction fuel with
  | zero =>
    intro R c hlen h
    have : R = [] := List.length_eq_zero.mp (Nat.le_zero.mp hlen)
    subst this
    simp [kahn] at h
  | succ fuel ih =>
    intro R c hlen h
    simp only [kahn] at h
    by_cases hR : R.isEmpty
    · rw [if_pos hR] at h; exact absurd h (by simp)
    · rw [if_neg hR] at h
      cases hp : kahnPick E R with
      | none =>
        refine ⟨R, ?_, kahnPick_none hp⟩
        intro hc
        subst hc
        simp at hR
      | some v =>
        rw [hp] at h
        dsimp only at h
        cases hrec : kahn E fuel (R.erase v) with
        | ok l' => rw [hrec] at h; simp [Except.map] at h
        | error c' =>
          have hv := (kahnPick_some hp).1
          have hlen' : (R.erase v).length ≤ fuel := by
            rw [List.length_erase_of_mem hv]
            omega
          exact ih _ _ hlen' hrec

/-- A predecessor inside `R` of a node of `R` along a dependency edge;
defined when every node of `R` has an incoming edge from `R`. -/
def predOf (E : List Edge) (R : List Nat) (v : Nat) : Nat :=
  match E.find? (fun e => (e.tgt == v) && decide (e.src ∈ R)) with
  | some e => e.src
  | none => v

/-- Iterated predecessor. -/
def predIter (E : List Edge) (R : List Nat) : Nat → Nat → Nat
  | 0, v => v
  | k + 1, v => predOf E R (predIter E R k v)

/-- The walk from the d-th predecessor of `u` back down to `u`. -/
def wlist (E : List Edge) (R : List Nat) (u : Nat) : Nat → List Nat
  | 0 => []
  | d + 1 => predIter E R d u :: wlist E R u d

theorem predOf_spec {E : List Edge} {R : List Nat} {v : Nat}
    (hin : hasIncoming E R v = true) :
    predOf E R v ∈ R ∧ EdgeStep E (predOf E R v) v := by
  rw [hasIncoming, List.any_eq_true] at hin
  rcases find?_some_of_exists hin with ⟨e, hfind, hpe⟩
  simp only [Bool.and_eq_true, beq_iff_eq, decide_eq_true_eq] at hpe
  have hmem := List.mem_of_find?_eq_some hfind
  unfold predOf
  rw [hfind]
  exact ⟨hpe.2, ⟨e, hmem, rfl, hpe.1⟩⟩

theorem predIter_mem {E : List Edge} {R : List Nat} {v : Nat} (hv : v ∈ R)
    (hall : ∀ w ∈ R, hasIncoming E R w = true) :
    ∀ k, predIter E R k v ∈ R := by
  intro k
  induction k with
  | zero => exact hv
  | succ k ih => exact (predOf_spec (hall _ ih)).1

theorem predIter_step {E : List Edge} {R : List Nat} {v : Nat} (hv : v ∈ R)
    (hall : ∀ w ∈ R, hasIncoming E R w = true) (k : Nat) :
    EdgeStep E (predIter E R (k + 1) v) (predIter E R k v) :=
  (predOf_spec (hall _ (predIter_mem hv hall k))).2

theorem predIter_add (E : List Edge) (R : List Nat) (v : Nat) :
    ∀ a b, predIter E R (a + b) v = predIter E R a (predIter E R b v) := by
  intro a
  induction a with
  | zero => intro b; simp [predIter, Nat.zero_add]
  | succ a ih =>
    intro b
    have h1 : a + 1 + b = (a + b) + 1 := by omega
    rw [h1]
    show predOf E R (predIter E R (a + b) v) = _
    rw [ih b]
    rfl

theorem chain_wlist {E : List Edge} {R : List Nat} {u : Nat} (hu : u ∈ R)
    (hall : ∀ w ∈ R, hasIncoming E R w = true) :
    ∀ d, List.Chain (EdgeStep E) (predIter E R d u) (wlist E R u d) := by
  intro d
  induction d with
  | zero => exact List.Chain.nil
  | succ d ih =>
    exact List.Chain.cons (predIter_step hu hall d) ih

theorem wlist_getLast {E : List Edge} {R : List Nat} {u : Nat} :
    ∀ d, (wlist E R u (d + 1)).getLast? = some u := by
  intro d
  induction d with
  | zero => rfl
  | succ d ih =>
    show (predIter E R (d + 1) u :: wlist E R u (d + 1)).getLast? = some u
    cases hw : wlist E R u (d + 1) with
    | nil => exact absurd hw (by simp [wlist])
    | cons a t =>
      rw [List.getLast?_cons_cons]
      rw [hw] at ih
      exact ih

theorem cycle_of_all_incoming {E : List Edge} {R : List Nat} (hne : R ≠ [])
    (hall : ∀ v ∈ R, hasIncoming E R v = true) : HasCycle E := by
  rcases List.exists_mem_of_ne_nil R hne with ⟨v, hv⟩
  have hmaps : ∀ a ∈ Finset.range (R.length + 1),
      predIter E R a v ∈ R.toFinset := by
    intro a _
    rw [List.mem_toFinset]
    exact predIter_mem hv hall a
  have hcard : R.toFinset.card < (Finset.range (R.length + 1)).card := by
    rw [Finset.card_range]
    exact Nat.lt_succ_of_le (List.toFinset_card_le R)
  rcases Finset.exists_ne_map_eq_of_card_lt_of_maps_to hcard hmaps with
    ⟨i, _, j, _, hij, heq⟩
  rcases Nat.lt_or_ge i j with hlt | hge
  · -- i < j: the walk of length j - i from predIter i v closes on itself
    have hd : j - i ≥ 1 := by omega
    have hu : predIter E R i v ∈ R := predIter_mem hv hall i
    have hclose : predIter E R (j - i) (predIter E R i v) =
        predIter E R i v := by
      rw [← predIter_add, Nat.sub_add_cancel (by omega : i ≤ j), ← heq]
    rcases Nat.exists_eq_add_of_le hd with ⟨d, hdd⟩
    refine ⟨predIter E R i v, wlist E R (predIter E R i v) (j - i), ?_, ?_, ?_⟩
    · rw [hdd]; simp [wlist, Nat.add_comm]
    · rw [hdd, Nat.add_comm]; exact wlist_getLast d
    · have := chain_wlist hu hall (E := E) (j - i)
      rwa [hclose] at this
  · have hlt : j < i := by omega
    have hd : i - j ≥ 1 := by omega
    have hu : predIter E R j v ∈ R := predIter_mem hv hall j
    have hclose : predIter E R (i - j) (predIter E R j v) =
        predIter E R j v := by
      rw [← predIter_add, Nat.sub_add_cancel (by omega : j ≤ i), heq]
    rcases Nat.exists_eq_add_of_le hd with ⟨d, hdd⟩
    refine ⟨predIter E R j v, wlist E R (predIter E R j v) (i - j), ?_, ?_, ?_⟩
    · rw [hdd]; simp [wlist, Nat.add_comm]
    · rw [hdd, Nat.add_comm]; exact wlist_getLast d
    · have := chain_wlist hu hall (E := E) (i - j)
      rwa [hclose] at this

/-- Completeness of the Orderer: an acyclic graph is successfully ordered. -/
theorem order_ok_of_not_hasCycle {g : WorkflowGraph}
    (h : ¬ HasCycle g.edges) : ∃ l, order g = .ok l := by
  cases ho : order g with
  | ok l => exact ⟨l, rfl⟩
  | error c =>
    exfalso
    rcases kahn_error_all_incoming _ _ c (Nat.le_refl _) ho with
      ⟨R', hne, hall⟩
    exact h (cycle_of_all_incoming hne hall)

/-- A cyclic graph is never successfully ordered; ordering reports
CyclicGraphError. -/
theorem order_error_of_hasCycle {g : WorkflowGraph} (hwf : WellFormed g)
    (hc : HasCycle g.edges) : order g = .error .cyclic := by
  cases ho : order g with
  | ok l => exact absurd hc (not_hasCycle_of_order_ok ho hwf)
  | error c => cases c; rfl

/-! ## Lemmas about the ComponentIsolator -/

theorem adjB_symm (E : List Edge) (a b : Nat) :
    adjB E a b = true → adjB E b a = true := by
  intro h
  rw [adjB, List.any_eq_true] at h ⊢
  rcases h with ⟨e, he, hp⟩
  refine ⟨e, he, ?_⟩
  rcases Bool.or_eq_true_iff.mp hp with h1 | h1
  · exact Bool.or_eq_true_iff.mpr (Or.inr h1)
  · exact Bool.or_eq_true_iff.mpr (Or.inl h1)

theorem adjStep_symm {g : WorkflowGraph} {a b : Nat} (h : AdjStep g a b) :
    AdjStep g b a :=
  ⟨h.2.1, h.1, adjB_symm _ _ _ h.2.2⟩

theorem reach_symm {g : WorkflowGraph} {a b : Nat} (h : Reach g a b) :
    Reach g b a := by
  induction h with
  | refl => exact Relation.ReflTransGen.refl
  | tail _ hstep ih =>
    exact Relation.ReflTransGen.trans
      (Relation.ReflTransGen.single (adjStep_symm hstep)) ih

theorem reach_mem_right {g : WorkflowGraph} {a b : Nat} (h : Reach g a b)
    (ha : a ∈ nodeIds g) : b ∈ nodeIds g := by
  induction h with
  | refl => exact ha
  | tail _ hstep _ => exact hstep.2.1

theorem mem_expandOnce {g : WorkflowGraph} {s : List Nat} {x : Nat} :
    x ∈ expandOnce g s ↔
    x ∈ s ∨ (x ∈ nodeIds g ∧ x ∉ s ∧ ∃ u ∈ s, adjB g.edges u x = true) := by
  simp only [expandOnce, List.mem_append, List.mem_filter,
    Bool.and_eq_true, Bool.not_eq_true', decide_eq_false_iff_not,
    List.any_eq_true]

theorem subset_expandOnce (g : WorkflowGraph) (s : List Nat) :
    ∀ x ∈ s, x ∈ expandOnce g s := by
  intro x hx
  exact mem_expandOnce.mpr (Or.inl hx)

theorem subset_reachAux (g : WorkflowGraph) :
    ∀ (n : Nat) (s : List Nat), ∀ x ∈ s, x ∈ reachAux g n s := by
  intro n
  induction n with
  | zero => intro s x hx; exact hx
  | succ n ih =>
    intro s x hx
    exact ih (expandOnce g s) x (subset_expandOnce g s x hx)

theorem reachAux_subset_nodeIds (g : WorkflowGraph) :
    ∀ (n : Nat) (s : List Nat), (∀ x ∈ s, x ∈ nodeIds g) →
    ∀ x ∈ reachAux g n s, x ∈ nodeIds g := by
  intro n
  induction n with
  | zero => intro s hs x hx; exact hs x hx
  | succ n ih =>
    intro s hs x hx
    refine ih (expandOnce g s) ?_ x hx
    intro y hy
    rcases mem_expandOnce.mp hy with h | h
    · exact hs y h
    · exact h.1

theorem nodup_expandOnce {g : WorkflowGraph} (hids : (nodeIds g).Nodup)
    {s : List Nat} (hs : s.Nodup) : (expandOnce g s).Nodup := by
  refine List.Nodup.append hs (List.Nodup.filter _ hids) ?_
  intro a ha hafilter
  rw [List.mem_filter, Bool.and_eq_true, Bool.not_eq_true',
    decide_eq_false_iff_not] at hafilter
  exact hafilter.2.1 ha

theorem expandOnce_eq_of_none_new {g : WorkflowGraph} {s : List Nat}
    (h : ∀ v ∈ nodeIds g, v ∉ s → ¬ ∃ u ∈ s, adjB g.edges u v = true) :
    expandOnce g s = s := by
  unfold expandOnce
  have : (nodeIds g).filter
      (fun v => !(decide (v ∈ s)) && s.any (fun u => adjB g.edges u v)) =
      [] := by
    rw [List.filter_eq_nil_iff]
    intro v hv
    rw [Bool.and_eq_true, Bool.not_eq_true', decide_eq_false_iff_not,
      List.any_eq_true]
    rintro ⟨hvs, u, hu, hadj⟩
    exact h v hv hvs ⟨u, hu, hadj⟩
  rw [this, List.append_nil]

theorem expandOnce_grows {g : WorkflowGraph} {s : List Nat}
    (h : expandOnce g s ≠ s) : s.length + 1 ≤ (expandOnce g s).length := by
  unfold expandOnce at h ⊢
  cases hf : (nodeIds g).filter
      (fun v => !(decide (v ∈ s)) && s.any (fun u => adjB g.edges u v)) with
  | nil => rw [hf, List.append_nil] at h; exact absurd rfl h
  | cons a t =>
    simp only [List.length_append, List.length_cons]
    omega

theorem reachAux_stable {g : WorkflowGraph} {s : List Nat}
    (h : expandOnce g s = s) : ∀ n, reachAux g n s = s := by
  intro n
  induction n with
  | zero => rfl
  | succ n ih =>
    show reachAux g n (expandOnce g s) = s
    rw [h]
    exact ih

theorem reachAux_fix {g : WorkflowGraph} (hids : (nodeIds g).Nodup) :
    ∀ (n : Nat) (s : List Nat), s.Nodup → (∀ x ∈ s, x ∈ nodeIds g) →
    (nodeIds g).length ≤ n + s.length →
    expandOnce g (reachAux g n s) = reachAux g n s := by
  intro n
  induction n with
  | zero =>
    intro s hnd hsub hlen
    show expandOnce g s = s
    have hsup : ∀ v ∈ nodeIds g, v ∈ s := by
      intro v hv
      have hsubF : s.toFinset ⊆ (nodeIds g).toFinset := by
        intro a ha
        rw [List.mem_toFinset] at ha ⊢
        exact hsub a ha
      have hcard : (nodeIds g).toFinset.card ≤ s.toFinset.card := by
        rw [List.toFinset_card_of_nodup hnd, List.toFinset_card_of_nodup hids]
        omega
      have := Finset.eq_of_subset_of_card_le hsubF hcard
      rw [← List.mem_toFinset, ← this, List.mem_toFinset] at hv
      exact hv
    exact expandOnce_eq_of_none_new (fun v hv hvs _ => hvs (hsup v hv))
  | succ n ih =>
    intro s hnd hsub hlen
    by_cases hfix : expandOnce g s = s
    · rw [reachAux_stable hfix (n + 1), hfix]
    · show expandOnce g (reachAux g n (expandOnce g s)) = _
      have hnd' := nodup_expandOnce hids hnd
      have hsub' : ∀ x ∈ expandOnce g s, x ∈ nodeIds g := by
        intro x hx
        rcases mem_expandOnce.mp hx with h | h
        · exact hsub x h
        · exact h.1
      have hlen' : (nodeIds g).length ≤ n + (expandOnce g s).length := by
        have := expandOnce_grows hfix
        omega
      exact ih (expandOnce g s) hnd' hsub' hlen'

theorem component_fix {g : WorkflowGraph} (hids : (nodeIds g).Nodup)
    {v : Nat} (hv : v ∈ nodeIds g) :
    expandOnce g (component g v) = component g v := by
  refine reachAux_fix hids _ [v] (List.nodup_singleton v) ?_ ?_
  · intro x hx
    rw [List.mem_singleton] at hx
    subst hx
    exact hv
  · simp

theorem component_closed {g : WorkflowGraph} (hids : (nodeIds g).Nodup)
    {v : Nat} (hv : v ∈ nodeIds g) {u w : Nat} (hu : u ∈ component g v)
    (hstep : AdjStep g u w) : w ∈ component g v := by
  by_cases hw : w ∈ component g v
  · exact hw
  · have : w ∈ expandOnce g (component g v) :=
      mem_expandOnce.mpr (Or.inr ⟨hstep.2.1, hw, u, hu, hstep.2.2⟩)
    rwa [component_fix hids hv] at this

theorem component_subset_nodeIds {g : WorkflowGraph} {v : Nat}
    (hv : v ∈ nodeIds g) : ∀ x ∈ component g v, x ∈ nodeIds g := by
  intro x hx
  refine reachAux_subset_nodeIds g _ [v] ?_ x hx
  intro y hy
  rw [List.mem_singleton] at hy
  subst hy
  exact hv

theorem self_mem_component (g : WorkflowGraph) (v : Nat) :
    v ∈ component g v :=
  subset_reachAux g _ [v] v (List.mem_singleton_self v)

theorem component_sound {g : WorkflowGraph} {v : Nat} (hv : v ∈ nodeIds g) :
    ∀ u ∈ component g v, Reach g v u := by
  have main : ∀ (n : Nat) (s : List Nat), (∀ x ∈ s, x ∈ nodeIds g) →
      (∀ x ∈ s, Reach g v x) → ∀ u ∈ reachAux g n s, Reach g v u := by
    intro n
    induction n with
    | zero => intro s _ hr u hu; exact hr u hu
    | succ n ih =>
      intro s hsub hr u hu
      refine ih (expandOnce g s) ?_ ?_ u hu
      · intro y hy
        rcases mem_expandOnce.mp hy with h | h
        · exact hsub y h
        · exact h.1
      · intro y hy
        rcases mem_expandOnce.mp hy with h | h
        · exact hr y h
        · rcases h with ⟨hyid, _, w, hw, hadj⟩
          exact Relation.ReflTransGen.tail (hr w hw) ⟨hsub w hw, hyid, hadj⟩
  intro u hu
  refine main _ [v] ?_ ?_ u hu
  · intro x hx
    rw [List.mem_singleton] at hx
    subst hx
    exact hv
  · intro x hx
    rw [List.mem_singleton] at hx
    subst hx
    exact Relation.ReflTransGen.refl

theorem component_complete {g : WorkflowGraph} (hids : (nodeIds g).Nodup)
    {v : Nat} (hv : v ∈ nodeIds g) {u : Nat} (h : Reach g v u) :
    u ∈ component g v := by
  induction h with
  | refl => exact self_mem_component g v
  | tail _ hstep ih => exact component_closed hids hv ih hstep

theorem mem_component_iff {g : WorkflowGraph} (hids : (nodeIds g).Nodup)
    {v : Nat} (hv : v ∈ nodeIds g) {u : Nat} :
    u ∈ component g v ↔ Reach g v u :=
  ⟨fun h => component_sound hv u h, component_complete hids hv⟩

theorem mem_component_comm {g : WorkflowGraph} (hids : (nodeIds g).Nodup)
    {v u : Nat} (hv : v ∈ nodeIds g) (hu : u ∈ component g v) :
    v ∈ component g u := by
  have hr : Reach g v u := component_sound hv u hu
  have hu' : u ∈ nodeIds g := component_subset_nodeIds hv u hu
  exact component_complete hids hu' (reach_symm hr)

theorem component_eq_of_mem {g : WorkflowGraph} (hids : (nodeIds g).Nodup)
    {v u : Nat} (hv : v ∈ nodeIds g) (hu : u ∈ component g v) :
    ∀ w, w ∈ component g u ↔ w ∈ component g v := by
  intro w
  have hr : Reach g v u := component_sound hv u hu
  have hu' : u ∈ nodeIds g := component_subset_nodeIds hv u hu
  rw [mem_component_iff hids hu', mem_component_iff hids hv]
  constructor
  · intro h
    exact Relation.ReflTransGen.trans hr h
  · intro h
    exact Relation.ReflTransGen.trans (reach_symm hr) h

theorem isolateGo_spec (g : WorkflowGraph) (hids : (nodeIds g).Nodup) :
    ∀ (ids visited : List Nat),
    List.Pairwise (· < ·) ids →
    (∀ x ∈ ids, x ∈ nodeIds g) →
    (∀ x ∈ visited, x ∈ nodeIds g) →
    (∀ u ∈ visited, ∀ w ∈ component g u, w ∈ visited) →
    (∀ w ∈ nodeIds g, w ∉ visited → w ∈ ids) →
    (∀ c ∈ isolateGo g ids visited, ∃ v, v ∈ nodeIds g ∧
        c = component g v ∧ v ∈ c ∧ (∀ w ∈ c, v ≤ w) ∧ v ∈ ids ∧
        v ∉ visited) ∧
    (∀ x ∈ nodeIds g, x ∉ visited → ∃ c ∈ isolateGo g ids visited, x ∈ c) ∧
    (∀ c ∈ isolateGo g ids visited, ∀ x ∈ c, x ∈ nodeIds g ∧ x ∉ visited) ∧
    List.Pairwise (fun c d => ∀ x ∈ c, x ∉ d) (isolateGo g ids visited) ∧
    List.Pairwise (fun c d => (pickMin c).getD 0 < (pickMin d).getD 0)
      (isolateGo g ids visited) := by
  intro ids
  induction ids with
  | nil =>
    intro visited _ _ _ _ hpend
    simp only [isolateGo]
    refine ⟨by simp, ?_, by simp, by simp, by simp⟩
    intro x hx hxv
    exact absurd (hpend x hx hxv) (List.not_mem_nil x)
  | cons v rest ih =>
    intro visited hso hsub hvisN hvisC hpend
    rcases List.pairwise_cons.mp hso with ⟨hvlt, hso'⟩
    by_cases hv : v ∈ visited
    · have heq : isolateGo g (v :: rest) visited =
          isolateGo g rest visited := by
        simp [isolateGo, hv]
      have hpend' : ∀ w ∈ nodeIds g, w ∉ visited → w ∈ rest := by
        intro w hw hwv
        rcases List.mem_cons.mp (hpend w hw hwv) with rfl | h
        · exact absurd hv hwv
        · exact h
      obtain ⟨i1, i2, i3, i4, i5⟩ := ih visited hso'
        (fun x hx => hsub x (List.mem_cons_of_mem _ hx)) hvisN hvisC hpend'
      rw [heq]
      refine ⟨?_, i2, i3, i4, i5⟩
      intro c hc
      obtain ⟨u, hu1, hu2, hu3, hu4, hu5, hu6⟩ := i1 c hc
      exact ⟨u, hu1, hu2, hu3, hu4, List.mem_cons_of_mem _ hu5, hu6⟩
    · have heq : isolateGo g (v :: rest) visited =
          component g v :: isolateGo g rest (visited ++ component g v) := by
        simp [isolateGo, hv]
      have hvid : v ∈ nodeIds g := hsub v (List.mem_cons_self _ _)
      have hCid : ∀ w ∈ component g v, w ∈ nodeIds g :=
        component_subset_nodeIds hvid
      have hCnv : ∀ w ∈ component g v, w ∉ visited := by
        intro w hw hwvis
        exact hv (hvisC w hwvis v (mem_component_comm hids hvid hw))
      have hCmin : ∀ w ∈ component g v, v ≤ w := by
        intro w hw
        rcases List.mem_cons.mp (hpend w (hCid w hw) (hCnv w hw)) with rfl | h
        · exact Nat.le_refl _
        · exact Nat.le_of_lt (hvlt w h)
      have hvisN' : ∀ x ∈ visited ++ component g v, x ∈ nodeIds g := by
        intro x hx
        rcases List.mem_append.mp hx with h | h
        · exact hvisN x h
        · exact hCid x h
      have hvisC' : ∀ u ∈ visited ++ component g v, ∀ w ∈ component g u,
          w ∈ visited ++ component g v := by
        intro u hu w hw
        rcases List.mem_append.mp hu with h | h
        · exact List.mem_append.mpr (Or.inl (hvisC u h w hw))
        · exact List.mem_append.mpr
            (Or.inr ((component_eq_of_mem hids hvid h w).mp hw))
      have hpend' : ∀ w ∈ nodeIds g, w ∉ visited ++ component g v →
          w ∈ rest := by
        intro w hw hwv
        have hw1 : w ∉ visited := fun h => hwv (List.mem_append.mpr (Or.inl h))
        have hw2 : w ∉ component g v :=
          fun h => hwv (List.mem_append.mpr (Or.inr h))
        rcases List.mem_cons.mp (hpend w hw hw1) with rfl | h
        · exact absurd (self_mem_component g w) hw2
        · exact h
      obtain ⟨i1, i2, i3, i4, i5⟩ := ih (visited ++ component g v) hso'
        (fun x hx => hsub x (List.mem_cons_of_mem _ hx)) hvisN' hvisC' hpend'
      rw [heq]
      refine ⟨?_, ?_, ?_, ?_, ?_⟩
      · intro c hc
        rcases List.mem_cons.mp hc with rfl | hc'
        · exact ⟨v, hvid, rfl, self_mem_component g v, hCmin,
            List.mem_cons_self _ _, hv⟩
        · obtain ⟨u, hu1, hu2, hu3, hu4, hu5, hu6⟩ := i1 c hc'
          exact ⟨u, hu1, hu2, hu3, hu4, List.mem_cons_of_mem _ hu5,
            fun h => hu6 (List.mem_append.mpr (Or.inl h))⟩
      · intro x hx hxv
        by_cases hxC : x ∈ component g v
        · exact ⟨component g v, List.mem_cons_self _ _, hxC⟩
        · have hx' : x ∉ visited ++ component g v := by
            intro h
            rcases List.mem_append.mp h with h' | h'
            · exact hxv h'
            · exact hxC h'
          obtain ⟨c, hc, hxc⟩ := i2 x hx hx'
          exact ⟨c, List.mem_cons_of_mem _ hc, hxc⟩
      · intro c hc x hx
        rcases List.mem_cons.mp hc with rfl | hc'
        · exact ⟨hCid x hx, hCnv x hx⟩
        · have := i3 c hc' x hx
          exact ⟨this.1, fun h => this.2 (List.mem_append.mpr (Or.inl h))⟩
      · refine List.pairwise_cons.mpr ⟨?_, i4⟩
        intro d hd x hxC hxd
        exact (i3 d hd x hxd).2 (List.mem_append.mpr (Or.inr hxC))
      · refine List.pairwise_cons.mpr ⟨?_, i5⟩
        intro d hd
        obtain ⟨u, _, _, hu3, hu4, hu5, _⟩ := i1 d hd
        have hminC : (pickMin (component g v)).getD 0 = v := by
          rw [pickMin_eq_some_of (self_mem_component g v) hCmin]
          rfl
        have hminD : (pickMin d).getD 0 = u := by
          rw [pickMin_eq_some_of hu3 hu4]
          rfl
        rw [hminC, hminD]
        exact hvlt u hu5

theorem mem_sortIds {l : List Nat} {x : Nat} : x ∈ sortIds l ↔ x ∈ l :=
  (List.perm_insertionSort (· ≤ ·) l).mem_iff

theorem sortIds_pairwise_lt {l : List Nat} (h : l.Nodup) :
    List.Pairwise (· < ·) (sortIds l) := by
  have h1 : List.Pairwise (· ≤ ·) (sortIds l) :=
    List.sorted_insertionSort (· ≤ ·) l
  have h2 : (sortIds l).Nodup :=
    ((List.perm_insertionSort (· ≤ ·) l).nodup_iff).mpr h
  exact (List.Pairwise.and h1 h2).imp
    (fun hab => Nat.lt_of_le_of_ne hab.1 hab.2)

theorem componentIds_spec (g : WorkflowGraph) (hids : (nodeIds g).Nodup) :
    (∀ c ∈ componentIds g, ∃ v, v ∈ nodeIds g ∧ c = component g v ∧
        v ∈ c ∧ ∀ w ∈ c, v ≤ w) ∧
    (∀ x ∈ nodeIds g, ∃ c ∈ componentIds g, x ∈ c) ∧
    (∀ c ∈ componentIds g, ∀ x ∈ c, x ∈ nodeIds g) ∧
    List.Pairwise (fun c d => ∀ x ∈ c, x ∉ d) (componentIds g) ∧
    List.Pairwise (fun c d => (pickMin c).getD 0 < (pickMin d).getD 0)
      (componentIds g) := by
  obtain ⟨i1, i2, i3, i4, i5⟩ := isolateGo_spec g hids (sortIds (nodeIds g))
    [] (sortIds_pairwise_lt hids) (fun x hx => mem_sortIds.mp hx)
    (by simp) (by simp) (fun w hw _ => mem_sortIds.mpr hw)
  refine ⟨?_, ?_, ?_, i4, i5⟩
  · intro c hc
    obtain ⟨u, hu1, hu2, hu3, hu4, _, _⟩ := i1 c hc
    exact ⟨u, hu1, hu2, hu3, hu4⟩
  · intro x hx
    exact i2 x hx (List.not_mem_nil x)
  · intro c hc x hx
    exact (i3 c hc x hx).1

theorem mem_nodeIds_subgraph {g : WorkflowGraph} {ids : List Nat} {x : Nat} :
    x ∈ nodeIds (subgraph g ids) ↔ x ∈ nodeIds g ∧ x ∈ ids := by
  simp only [nodeIds, subgraph, List.mem_map, List.mem_filter,
    decide_eq_true_eq]
  constructor
  · rintro ⟨p, ⟨hp, hpid⟩, rfl⟩
    exact ⟨⟨p, hp, rfl⟩, hpid⟩
  · rintro ⟨⟨p, hp, rfl⟩, hid⟩
    exact ⟨p, ⟨hp, hid⟩, rfl⟩

theorem adjB_of_edge {E : List Edge} {e : Edge} (he : e ∈ E) :
    adjB E e.src e.tgt = true := by
  rw [adjB, List.any_eq_true]
  exact ⟨e, he, by simp⟩

/-! ## Lemmas about dedupF, node lookup, and the GraphBuilder -/

theorem mem_dedupFAux {α : Type} [DecidableEq α] :
    ∀ (l seen : List α) (x : α),
    x ∈ dedupFAux seen l ↔ x ∈ l ∧ x ∉ seen := by
  intro l
  induction l with
  | nil => intro seen x; simp [dedupFAux]
  | cons y ys ih =>
    intro seen x
    by_cases hy : y ∈ seen
    · rw [dedupFAux, if_pos hy, ih]
      constructor
      · rintro ⟨h1, h2⟩
        exact ⟨List.mem_cons_of_mem _ h1, h2⟩
      · rintro ⟨h1, h2⟩
        rcases List.mem_cons.mp h1 with rfl | h1'
        · exact absurd hy h2
        · exact ⟨h1', h2⟩
    · rw [dedupFAux, if_neg hy]
      constructor
      · intro h
        rcases List.mem_cons.mp h with rfl | h'
        · exact ⟨List.mem_cons_self _ _, hy⟩
        · rcases (ih (y :: seen) x).mp h' with ⟨h1, h2⟩
          exact ⟨List.mem_cons_of_mem _ h1,
            fun hc => h2 (List.mem_cons_of_mem _ hc)⟩
      · rintro ⟨h1, h2⟩
        rcases List.mem_cons.mp h1 with rfl | h1'
        · exact List.mem_cons_self _ _
        · by_cases hxy : x = y
          · subst hxy
            exact List.mem_cons_self _ _
          · refine List.mem_cons_of_mem _ ((ih (y :: seen) x).mpr ⟨h1', ?_⟩)
            intro hc
            rcases List.mem_cons.mp hc with h' | h'
            · exact hxy h'
            · exact h2 h'

theorem mem_dedupF {α : Type} [DecidableEq α] :
    ∀ (l : List α) (x : α), x ∈ dedupF l ↔ x ∈ l := by
  intro l x
  rw [dedupF, mem_dedupFAux]
  simp

theorem nodup_dedupFAux {α : Type} [DecidableEq α] :
    ∀ (l seen : List α), (dedupFAux seen l).Nodup := by
  intro l
  induction l with
  | nil => intro seen; simp [dedupFAux]
  | cons y ys ih =>
    intro seen
    by_cases hy : y ∈ seen
    · rw [dedupFAux, if_pos hy]
      exact ih seen
    · rw [dedupFAux, if_neg hy]
      refine List.nodup_cons.mpr ⟨?_, ih (y :: seen)⟩
      intro hc
      exact ((mem_dedupFAux ys (y :: seen) y).mp hc).2
        (List.mem_cons_self _ _)

theorem nodup_dedupF {α : Type} [DecidableEq α] :
    ∀ l : List α, (dedupF l).Nodup := by
  intro l
  exact nodup_dedupFAux l []

theorem dedupF_isSetEnum {α : Type} [DecidableEq α] (l : List α) :
    IsSetEnum l (dedupF l) :=
  ⟨nodup_dedupF l, fun x hx => (mem_dedupF l x).mp hx,
    fun x hx => (mem_dedupF l x).mpr hx⟩

theorem length_filterMap_all_some {α β : Type} (f : α → Option β) :
    ∀ l : List α, (∀ x ∈ l, (f x).isSome) →
    (l.filterMap f).length = l.length := by
  intro l
  induction l with
  | nil => intro _; rfl
  | cons x xs ih =>
    intro h
    have hx := h x (List.mem_cons_self _ _)
    rcases Option.isSome_iff_exists.mp hx with ⟨b, hb⟩
    rw [List.filterMap_cons, hb, List.length_cons,
      ih (fun y hy => h y (List.mem_cons_of_mem _ hy)), List.length_cons]

theorem lookupNode_isSome {g : WorkflowGraph} {i : Nat}
    (h : i ∈ nodeIds g) : (lookupNode g i).isSome := by
  rw [nodeIds, List.mem_map] at h
  rcases h with ⟨p, hp, hpi⟩
  have hex : ∃ q ∈ g.nodes, (fun q : Nat × Node => q.1 == i) q = true :=
    ⟨p, hp, by simp [hpi]⟩
  rcases find?_some_of_exists hex with ⟨a, ha, _⟩
  rw [lookupNode, ha]
  rfl

theorem extractNode_ok_id {rn : RawNode} {p : Nat × Node}
    (h : extractNode rn = .ok p) : rn.id = some p.1 := by
  unfold extractNode at h
  cases hid : rn.id with
  | none => rw [hid] at h; exact absurd h (by simp)
  | some i =>
    cases ht : rn.title with
    | none => rw [hid, ht] at h; exact absurd h (by simp)
    | some t =>
      cases hty : rn.typeId with
      | none => rw [hid, ht, hty] at h; exact absurd h (by simp)
      | some ty =>
        rw [hid, ht, hty] at h
        dsimp only at h
        injection h with h'
        rw [← h']

theorem extractNodes_ok_ids :
    ∀ {l : List RawNode} {ns : List (Nat × Node)},
    extractNodes l = .ok ns → ns.map Prod.fst = l.filterMap RawNode.id := by
  intro l
  induction l with
  | nil =>
    intro ns h
    simp only [extractNodes] at h
    injection h with h'
    subst h'
    rfl
  | cons n ls ih =>
    intro ns h
    simp only [extractNodes] at h
    cases hn : extractNode n with
    | error e => rw [hn] at h; exact absurd h (by simp)
    | ok p =>
      rw [hn] at h
      cases hns : extractNodes ls with
      | error e =>
        rw [hns] at h
        exact absurd h (by simp)
      | ok ps =>
        rw [hns] at h
        dsimp only at h
        injection h with h'
        subst h'
        rw [List.map_cons, List.filterMap_cons, extractNode_ok_id hn, ih hns]

/-! ## Lemmas about the CLI path resolution -/

theorem string_prepend_ne_empty {s t : String} (h : 0 < s.length) :
    s ++ t ≠ "" := by
  intro hc
  have := congrArg String.length hc
  rw [String.length_append] at this
  simp at this
  omega

theorem resolveSingleWorkflow_ok_spec {fs : FS} {p q : FPath}
    (h : resolveSingleWorkflow fs p = .ok q) :
    fs.existsP q = true ∧ fs.isFileP q = true ∧
    pname q = "workflow.knime" ∧ (q = p ∨ q = "workflow.knime" :: p) := by
  unfold resolveSingleWorkflow at h
  by_cases h1 : fs.existsP p = false
  · rw [if_pos h1] at h; exact absurd h (by simp)
  · rw [if_neg h1] at h
    by_cases h2 : fs.isFileP p
    · rw [if_pos h2] at h
      by_cases h3 : pname p ≠ "workflow.knime"
      · rw [if_pos h3] at h; exact absurd h (by simp)
      · rw [if_neg h3] at h
        injection h with h'
        subst h'
        push_neg at h3
        exact ⟨Bool.of_not_eq_false h1, h2, h3, Or.inl rfl⟩
    · rw [if_neg h2] at h
      by_cases h4 : fs.existsP ("workflow.knime" :: p) &&
          fs.isFileP ("workflow.knime" :: p)
      · rw [if_pos h4] at h
        injection h with h'
        subst h'
        rcases Bool.and_eq_true_iff.mp h4 with ⟨ha, hb⟩
        exact ⟨ha, hb, rfl, Or.inr rfl⟩
      · rw [if_neg h4] at h
        exact absurd h (by simp)

theorem existsP_mem_paths {fs : FS} {q : FPath} (h : fs.existsP q = true) :
    q ∈ fs.entries.map FSEntry.path := by
  rw [FS.existsP, List.any_eq_true] at h
  rcases h with ⟨e, he, hp⟩
  rw [beq_iff_eq] at hp
  exact List.mem_map.mpr ⟨e, he, hp⟩

theorem mem_rglobMatches {fs : FS} {q : FPath}
    (hmem : q ∈ fs.entries.map FSEntry.path) (hq : pname q = "workflow.knime")
    (hne : q ≠ []) : q ∈ rglobMatches fs q.tail ("workflow.knime") := by
  rw [rglobMatches, List.mem_filter]
  refine ⟨hmem, ?_⟩
  cases q with
  | nil => exact absurd rfl hne
  | cons c t =>
    simp only [List.tail_cons, Bool.and_eq_true, decide_eq_true_eq,
      beq_iff_eq]
    refine ⟨⟨List.suffix_cons c t, ?_⟩, hq⟩
    intro hc
    have := congrArg List.length hc
    simp at this

/-! ## Concrete instances used by the claims -/

/-- The diamond of spec section 8, scenario 2: A=1, B=2, C=3, D=4 with edges
A→B, A→C, B→D, C→D. -/
def diamondG : WorkflowGraph :=
  ⟨"diamond",
    [(1, ⟨1, "A", "t", []⟩), (2, ⟨2, "B", "t", []⟩),
     (3, ⟨3, "C", "t", []⟩), (4, ⟨4, "D", "t", []⟩)],
    [⟨1, 1, 2, 1⟩, ⟨1, 1, 3, 1⟩, ⟨2, 1, 4, 1⟩, ⟨3, 1, 4, 1⟩]⟩

/-- The cyclic component of spec section 8, scenario 5: A=1, B=2 with edges
A→B and B→A. -/
def cycG : WorkflowGraph :=
  ⟨"cyc", [(1, ⟨1, "A", "t", []⟩), (2, ⟨2, "B", "t", []⟩)],
    [⟨1, 1, 2, 1⟩, ⟨2, 1, 1, 1⟩]⟩

/-- A source graph with an acyclic component {1,2} and a cyclic component
{3,4}: partial success across components of one source graph. -/
def gMix : WorkflowGraph :=
  ⟨"mix",
    [(1, ⟨1, "A", "t", []⟩), (2, ⟨2, "B", "t", []⟩),
     (3, ⟨3, "C", "t", []⟩), (4, ⟨4, "D", "t", []⟩)],
    [⟨1, 1, 2, 1⟩, ⟨3, 1, 4, 1⟩, ⟨4, 1, 3, 1⟩]⟩

/-- Two disjoint chains 1→2 and 5→6 in one source graph (spec section 8,
scenario 3), with the node mapping deliberately out of order. -/
def gTwo : WorkflowGraph :=
  ⟨"two",
    [(5, ⟨5, "X", "t", []⟩), (1, ⟨1, "A", "t", []⟩),
     (6, ⟨6, "Y", "t", []⟩), (2, ⟨2, "B", "t", []⟩)],
    [⟨1, 1, 2, 1⟩, ⟨5, 1, 6, 1⟩]⟩

theorem cycG_hasCycle : HasCycle cycG.edges := by
  refine ⟨1, [2, 1], by simp, rfl, ?_⟩
  refine List.Chain.cons ⟨⟨1, 1, 2, 1⟩, ?_, rfl, rfl⟩ ?_
  · simp [cycG]
  · exact List.Chain.cons ⟨⟨2, 1, 1, 1⟩, by simp [cycG], rfl, rfl⟩
      List.Chain.nil

/-! ## Claim theorems -/

/-- Claim C3: for every acyclic component, the Orderer returns a sequence of
node identifiers in which, for every edge (u → v) of the component, u
precedes v; among simultaneously-eligible nodes the ascending-smallest
identifier comes first, so on the diamond A→B, A→C, B→D, C→D the result is
exactly [A, B, C, D]. -/
theorem c3_orderer_topological_tie_break :
    (∀ g : WorkflowGraph, WellFormed g → ¬ HasCycle g.edges →
      ∃ l, order g = .ok l ∧
        ∀ e ∈ g.edges, List.indexOf e.src l < List.indexOf e.tgt l) ∧
    order diamondG = .ok [1, 2, 3, 4] := by
  constructor
  · intro g hwf hnc
    rcases order_ok_of_not_hasCycle hnc with ⟨l, hl⟩
    exact ⟨l, hl, order_topo hl hwf⟩
  · decide

/-- Witness for C3: the universally quantified part applied to the concrete
diamond component, its acyclicity certified from the computed order. -/
theorem c3_witness :
    ∃ l, order diamondG = .ok l ∧
      ∀ e ∈ diamondG.edges, List.indexOf e.src l < List.indexOf e.tgt l :=
  c3_orderer_topological_tie_break.1 diamondG (by decide)
    (not_hasCycle_of_order_ok (l := [1, 2, 3, 4]) (by decide) (by decide))

/-- Claim C4: for every component whose dependency edges contain a cycle,
ordering reports CyclicGraphError and aborts for that component only: no
block sequence is produced for it (assembly fails for it), while other
components of the same source graph may still be converted successfully —
witnessed by the mixed graph whose two components assemble to one success
and one failure. -/
theorem c4_cycle_error_partial_success :
    (∀ (g : WorkflowGraph) (reg : List (String × Strategy)),
      WellFormed g → HasCycle g.edges →
      order g = .error .cyclic ∧ assemble reg g = .error .cyclic) ∧
    (isolate gMix).map (fun c => exceptOk (assemble [] c)) = [true, false] := by
  constructor
  · intro g reg hwf hc
    have ho := order_error_of_hasCycle hwf hc
    refine ⟨ho, ?_⟩
    unfold assemble
    rw [ho]
  · decide

/-- Witness for C4: the universally quantified part applied to the concrete
cyclic component A→B→A. -/
theorem c4_witness :
    order cycG = .error .cyclic ∧ assemble [] cycG = .error .cyclic :=
  c4_cycle_error_partial_success.1 cycG [] (by decide) cycG_hasCycle

/-- Claim C5: for every WorkflowGraph, isolate returns a true partition —
the union of the components' node sets equals the source node set, the
components' node sets are pairwise disjoint, no edge crosses two components,
and the components appear in deterministic order by ascending smallest node
identifier. -/
theorem c5_isolate_partition (g : WorkflowGraph) (hwf : WellFormed g) :
    (∀ x, x ∈ nodeIds g ↔ ∃ c ∈ isolate g, x ∈ nodeIds c) ∧
    List.Pairwise (fun c d => ∀ x, x ∈ nodeIds c → x ∉ nodeIds d)
      (isolate g) ∧
    (∀ e ∈ g.edges, ∀ c ∈ isolate g,
      (e.src ∈ nodeIds c ↔ e.tgt ∈ nodeIds c)) ∧
    List.Pairwise (fun c d => minId c < minId d) (isolate g) := by
  obtain ⟨hids, hedge⟩ := hwf
  obtain ⟨p1, p2, p3, p4, p5⟩ := componentIds_spec g hids
  have hsubmem : ∀ c0 ∈ componentIds g, ∀ x,
      x ∈ nodeIds (subgraph g c0) ↔ x ∈ c0 := by
    intro c0 hc0 x
    rw [mem_nodeIds_subgraph]
    exact ⟨fun h => h.2, fun h => ⟨p3 c0 hc0 x h, h⟩⟩
  refine ⟨?_, ?_, ?_, ?_⟩
  · intro x
    constructor
    · intro hx
      obtain ⟨c0, hc0, hxc0⟩ := p2 x hx
      exact ⟨subgraph g c0, List.mem_map_of_mem _ hc0,
        mem_nodeIds_subgraph.mpr ⟨hx, hxc0⟩⟩
    · rintro ⟨c, hc, hxc⟩
      rcases List.mem_map.mp hc with ⟨c0, _, rfl⟩
      exact (mem_nodeIds_subgraph.mp hxc).1
  · rw [isolate, List.pairwise_map]
    refine List.Pairwise.imp_of_mem ?_ p4
    intro c0 d0 hc0 hd0 hdis x hx1 hx2
    exact hdis x ((hsubmem c0 hc0 x).mp hx1) ((hsubmem d0 hd0 x).mp hx2)
  · intro e he c hc
    rcases List.mem_map.mp hc with ⟨c0, hc0, rfl⟩
    obtain ⟨v, hv, hc0eq, _, _⟩ := p1 c0 hc0
    have hstep : AdjStep g e.src e.tgt :=
      ⟨(hedge e he).1, (hedge e he).2, adjB_of_edge he⟩
    constructor
    · intro hsrc
      have hsrc0 : e.src ∈ c0 := (hsubmem c0 hc0 _).mp hsrc
      rw [hc0eq] at hsrc0
      have : e.tgt ∈ component g v := component_closed hids hv hsrc0 hstep
      exact (hsubmem c0 hc0 _).mpr (hc0eq ▸ this)
    · intro htgt
      have htgt0 : e.tgt ∈ c0 := (hsubmem c0 hc0 _).mp htgt
      rw [hc0eq] at htgt0
      have : e.src ∈ component g v :=
        component_closed hids hv htgt0 (adjStep_symm hstep)
      exact (hsubmem c0 hc0 _).mpr (hc0eq ▸ this)
  · rw [isolate, List.pairwise_map]
    refine List.Pairwise.imp_of_mem ?_ p5
    intro c0 d0 hc0 hd0 hlt
    have h1 : minId (subgraph g c0) = (pickMin c0).getD 0 := by
      unfold minId
      rw [pickMin_congr (hsubmem c0 hc0)]
    have h2 : minId (subgraph g d0) = (pickMin d0).getD 0 := by
      unfold minId
      rw [pickMin_congr (hsubmem d0 hd0)]
    rw [h1, h2]
    exact hlt

/-- Witness for C5: the partition property at the concrete two-chain graph
(components {1,2} and {5,6}). -/
theorem c5_witness :
    (∀ x, x ∈ nodeIds gTwo ↔ ∃ c ∈ isolate gTwo, x ∈ nodeIds c) ∧
    List.Pairwise (fun c d => ∀ x, x ∈ nodeIds c → x ∉ nodeIds d)
      (isolate gTwo) ∧
    (∀ e ∈ gTwo.edges, ∀ c ∈ isolate gTwo,
      (e.src ∈ nodeIds c ↔ e.tgt ∈ nodeIds c)) ∧
    List.Pairwise (fun c d => minId c < minId d) (isolate gTwo) :=
  c5_isolate_partition gTwo (by decide)

/-- A node whose type identifier is not registered anywhere
(spec section 8, scenario 4). -/
def nodeUnknown : Node := ⟨7, "N", "com.unknown.NodeFactory", []⟩

/-- A single-node graph holding the unregistered node. -/
def gOne : WorkflowGraph := ⟨"one", [(7, nodeUnknown)], []⟩

/-- The assembly result of `gOne` under the empty registry. -/
def asmOne : AssemblyResult := ⟨[resolve [] nodeUnknown], [], 1, 1, 0⟩

/-- Claim C6: a node whose type identifier is absent from the registry
resolves to exactly one block with state IDLE and the not-implemented flag
set (and empty imports), and the resolver never raises (it is a total
function); the resolver never aborts the pipeline and every node of an
assembled component yields exactly one block. -/
theorem c6_unregistered_idle_one_block_per_node :
    (∀ (reg : List (String × Strategy)) (n : Node),
      lookupStrategy reg n.typeId = none →
      (resolve reg n).state = .IDLE ∧
      (resolve reg n).not_implemented = true ∧
      (resolve reg n).imports = []) ∧
    (∀ (reg : List (String × Strategy)) (g : WorkflowGraph)
      (r : AssemblyResult), WellFormed g → assemble reg g = .ok r →
      r.blocks.length = g.nodes.length) := by
  constructor
  · intro reg n h
    unfold resolve
    rw [h]
    exact ⟨rfl, rfl, rfl⟩
  · intro reg g r _ h
    unfold assemble at h
    cases ho : order g with
    | error e => rw [ho] at h; exact absurd h (by simp)
    | ok ids =>
      rw [ho] at h
      dsimp only at h
      injection h with h'
      subst h'
      have hperm : ids.Perm (nodeIds g) := order_perm ho
      have hlen : (ids.filterMap
          (fun i => (lookupNode g i).map (resolve reg))).length =
          ids.length := by
        refine length_filterMap_all_some _ ids ?_
        intro i hi
        have hmem : i ∈ nodeIds g := hperm.mem_iff.mp hi
        rcases Option.isSome_iff_exists.mp (lookupNode_isSome hmem) with
          ⟨nd, hnd⟩
        rw [hnd]
        rfl
      dsimp only
      rw [hlen, hperm.length_eq, nodeIds, List.length_map]

/-- Witness for C6: the unregistered node of spec scenario 4 resolves to an
IDLE block (empty registry), and the single-node component assembles to
exactly one block. -/
theorem c6_witness :
    ((resolve [] nodeUnknown).state = .IDLE ∧
     (resolve [] nodeUnknown).not_implemented = true ∧
     (resolve [] nodeUnknown).imports = []) ∧
    asmOne.blocks.length = gOne.nodes.length :=
  ⟨c6_unregistered_idle_one_block_per_node.1 [] nodeUnknown rfl,
   c6_unregistered_idle_one_block_per_node.2 [] gOne asmOne (by decide)
     (by decide)⟩

/-- Claim C7: raw input containing a repeated node identifier always makes
GraphBuilder fail with a ParseError, and build never produces a graph (no
silent merge or overwrite). -/
theorem c7_duplicate_ids_parse_error (r : RawInput)
    (hdup : ¬ (r.nodes.filterMap RawNode.id).Nodup) :
    (∃ e, build r = .error e) ∧ ∀ g, build r ≠ .ok g := by
  have main : ∃ e, build r = .error e := by
    unfold build
    cases hn : extractNodes r.nodes with
    | error e => exact ⟨e, rfl⟩
    | ok ns =>
      have hids : ns.map Prod.fst = r.nodes.filterMap RawNode.id :=
        extractNodes_ok_ids hn
      dsimp only
      rw [if_neg (by rw [hids]; exact hdup)]
      exact ⟨.duplicateNode, rfl⟩
  refine ⟨main, ?_⟩
  rcases main with ⟨e, he⟩
  intro g hg
  rw [he] at hg
  exact Except.noConfusion hg

/-- Raw input in which node identifier 1 repeats. -/
def rawDup : RawInput :=
  ⟨"w", [⟨some 1, some ("A"), some ("t"), []⟩,
         ⟨some 1, some ("B"), some ("t"), []⟩], []⟩

/-- Witness for C7: the duplicate-identifier raw input. -/
theorem c7_witness :
    (∃ e, build rawDup = .error e) ∧ ∀ g, build rawDup ≠ .ok g :=
  c7_duplicate_ids_parse_error rawDup (by decide)

/-- The empty workflow graph. -/
def gEmpty : WorkflowGraph := ⟨"empty", [], []⟩

/-- A parse oracle returning zero components for every path. -/
def parseEmpty : FPath → Except ParseError (List WorkflowGraph) :=
  fun _ => .ok []

/-- The workbook-block builder under the empty registry. -/
def bwb0 : WorkflowGraph → List CodeBlock × List String :=
  buildWorkbookBlocks []

/-- The root workflow file of the single-workflow filesystem below. -/
def wfFile1 : FPath := ["workflow.knime", "wf"]

/-- Claim C8: an input graph with an empty node mapping yields an empty
sequence of components — zero components, not a single empty component —
and the driver reports a root workflow with zero components as
"no nodes/edges found" (return value 4) producing no summaries. -/
theorem c8_empty_zero_components_root_reported :
    (∀ g : WorkflowGraph, g.nodes = [] → isolate g = []) ∧
    (∀ (bwb : WorkflowGraph → List CodeBlock × List String)
      (parse : FPath → Except ParseError (List WorkflowGraph)) (wf : FPath),
      parse wf = .ok [] →
      convertPath bwb parse true wf =
        ⟨some 4, [],
         [("No nodes/edges found in workflow: ") ++ pathStr wf]⟩) := by
  constructor
  · intro g hg
    cases g with
    | mk wid nodes edges =>
      dsimp only at hg
      subst hg
      rfl
  · intro bwb parse wf h
    unfold convertPath
    rw [h]
    rfl

/-- Witness for C8: the empty graph isolates to zero components, and a root
conversion over a parse yielding zero components returns 4 with the
"no nodes/edges" report. -/
theorem c8_witness :
    isolate gEmpty = [] ∧
    convertPath bwb0 parseEmpty true wfFile1 =
      ⟨some 4, [],
       [("No nodes/edges found in workflow: ") ++ pathStr wfFile1]⟩ :=
  ⟨c8_empty_zero_components_root_reported.1 gEmpty rfl,
   c8_empty_zero_components_root_reported.2 bwb0 parseEmpty wfFile1 rfl⟩

/-- Claim C9: for every input path, _resolve_single_workflow is total with
exactly two outcomes — it returns a path to an existing file whose final
name is workflow.knime (the argument itself, or workflow.knime directly
inside the argument directory, without recursion), or it raises
SystemExit(2) after printing a nonempty diagnostic. -/
theorem c9_resolve_single_workflow_total (fs : FS) (p : FPath) :
    (∃ m, resolveSingleWorkflow fs p = .error (2, m) ∧ m ≠ "") ∨
    (∃ q, resolveSingleWorkflow fs p = .ok q ∧ fs.existsP q = true ∧
      fs.isFileP q = true ∧ pname q = "workflow.knime" ∧
      (q = p ∨ q = "workflow.knime" :: p)) := by
  unfold resolveSingleWorkflow
  by_cases h1 : fs.existsP p = false
  · rw [if_pos h1]
    exact Or.inl ⟨_, rfl, string_prepend_ne_empty (by decide)⟩
  · rw [if_neg h1]
    by_cases h2 : fs.isFileP p
    · rw [if_pos h2]
      by_cases h3 : pname p ≠ "workflow.knime"
      · rw [if_pos h3]
        exact Or.inl ⟨_, rfl, string_prepend_ne_empty (by decide)⟩
      · rw [if_neg h3]
        push_neg at h3
        exact Or.inr ⟨p, rfl, Bool.of_not_eq_false h1, h2, h3, Or.inl rfl⟩
    · rw [if_neg h2]
      by_cases h4 : fs.existsP ("workflow.knime" :: p) &&
          fs.isFileP ("workflow.knime" :: p)
      · rw [if_pos h4]
        rcases Bool.and_eq_true_iff.mp h4 with ⟨ha, hb⟩
        exact Or.inr ⟨_, rfl, ha, hb, rfl, Or.inr rfl⟩
      · rw [if_neg h4]
        exact Or.inl ⟨_, rfl, string_prepend_ne_empty (by decide)⟩

/-- Claim C10: whenever _resolve_single_workflow succeeds, the recursive
discovery over the resolved workflow's parent directory contains the
resolved root workflow file, is therefore non-empty — so the
"No paths found to convert" branch of run_cli is unreachable — and run_cli
attempts at least one conversion, among them the root conversion with the
is_root flag set. -/
theorem c10_root_always_processed
    (fs : FS) (p wfRoot : FPath) (enum : List FPath → List FPath)
    (bwb : WorkflowGraph → List CodeBlock × List String)
    (parse : FPath → Except ParseError (List WorkflowGraph))
    (hres : resolveSingleWorkflow fs p = .ok wfRoot)
    (henum : ∀ l : List FPath, IsSetEnum l (enum l)) :
    wfRoot ∈ enum (rglobMatches fs wfRoot.tail ("workflow.knime")) ∧
    enum (rglobMatches fs wfRoot.tail ("workflow.knime")) ≠ [] ∧
    ∃ rs, runCli enum bwb parse fs p = .ok (0, rs) ∧
      (wfRoot, convertPath bwb parse true wfRoot) ∈ rs ∧ rs ≠ [] := by
  obtain ⟨hex, hfile, hname, _⟩ := resolveSingleWorkflow_ok_spec hres
  have hne : wfRoot ≠ [] := by
    intro hc
    rw [hc] at hname
    exact absurd hname (by decide)
  have hmem0 : wfRoot ∈ rglobMatches fs wfRoot.tail ("workflow.knime") :=
    mem_rglobMatches (existsP_mem_paths hex) hname hne
  have hmem : wfRoot ∈
      enum (rglobMatches fs wfRoot.tail ("workflow.knime")) :=
    (henum _).2.2 _ hmem0
  have hmemrs : (wfRoot, convertPath bwb parse true wfRoot) ∈
      (enum (rglobMatches fs wfRoot.tail ("workflow.knime"))).map
        (fun wf => (wf, convertPath bwb parse (decide (wfRoot = wf)) wf)) := by
    have heq :
        (fun wf => (wf, convertPath bwb parse (decide (wfRoot = wf)) wf))
          wfRoot = (wfRoot, convertPath bwb parse true wfRoot) := by
      simp
    rw [← heq]
    exact List.mem_map_of_mem _ hmem
  refine ⟨hmem, List.ne_nil_of_mem hmem,
    _, ?_, hmemrs, List.ne_nil_of_mem hmemrs⟩
  unfold runCli
  rw [hres]

/-- A filesystem with one workflow: the directory wf containing
workflow.knime. -/
def fs1 : FS := ⟨[⟨["wf"], false⟩, ⟨["workflow.knime", "wf"], true⟩]⟩

/-- The directory argument handed to the CLI. -/
def dirPath1 : FPath := ["wf"]

/-- Witness for C10: the singleton-workflow filesystem, with the
set-enumeration instantiated to first-occurrence deduplication. -/
theorem c10_witness :
    wfFile1 ∈ dedupF (rglobMatches fs1 wfFile1.tail ("workflow.knime")) ∧
    dedupF (rglobMatches fs1 wfFile1.tail ("workflow.knime")) ≠ [] ∧
    ∃ rs, runCli dedupF bwb0 parseEmpty fs1 dirPath1 = .ok (0, rs) ∧
      (wfFile1, convertPath bwb0 parseEmpty true wfFile1) ∈ rs ∧ rs ≠ [] :=
  c10_root_always_processed fs1 dirPath1 wfFile1 dedupF bwb0 parseEmpty
    (by decide) (fun l => dedupF_isSetEnum l)

/-- A Raw Loader oracle that always produces the duplicate-identifier raw
records, so the parse of every workflow raises ParseError. -/
def parseDup : FPath → Except ParseError (List WorkflowGraph) :=
  parseWorkflowComponents (fun _ => rawDup)

/-- Claim C1, refuted on the code: when parsing raises, convert_path
reports the error, does no further work on that input, and returns 3 — but
run_cli discards that return value and returns 0, so main exits with
status 0 rather than signalling failure to the caller. -/
theorem c1_parse_error_exit_status_zero :
    parseDup wfFile1 = .error .duplicateNode ∧
    convertPath bwb0 parseDup true wfFile1 =
      ⟨some 3, [], [("ERROR parsing ") ++ pathStr wfFile1]⟩ ∧
    runCli dedupF bwb0 parseDup fs1 dirPath1 =
      .ok (0, [(wfFile1, convertPath bwb0 parseDup true wfFile1)]) ∧
    mainExitCode (runCli dedupF bwb0 parseDup fs1 dirPath1) = 0 :=
  ⟨by decide, by decide, by decide, by decide⟩

/-- A filesystem with a root workflow and one metanode workflow: the
directory wf with workflow.knime, and wf/m1 with workflow.knime. -/
def fs2 : FS :=
  ⟨[⟨["wf"], false⟩, ⟨["workflow.knime", "wf"], true⟩,
    ⟨["m1", "wf"], false⟩, ⟨["workflow.knime", "m1", "wf"], true⟩]⟩

/-- The metanode workflow file of fs2. -/
def wfFile2 : FPath := ["workflow.knime", "m1", "wf"]

/-- A second valid set-enumeration: first-occurrence deduplication followed
by reversal. -/
def enumRev : List FPath → List FPath := fun l => (dedupF l).reverse

theorem revDedupF_isSetEnum {α : Type} [DecidableEq α] (l : List α) :
    IsSetEnum l (dedupF l).reverse :=
  ⟨List.nodup_reverse.mpr (nodup_dedupF l),
   fun x hx => (mem_dedupF l x).mp (List.mem_reverse.mp hx),
   fun x hx => List.mem_reverse.mpr ((mem_dedupF l x).mpr hx)⟩

/-- The order in which run_cli processes the discovered workflow files. -/
def runOrder (enum : List FPath → List FPath)
    (bwb : WorkflowGraph → List CodeBlock × List String)
    (parse : FPath → Except ParseError (List WorkflowGraph))
    (fs : FS) (p : FPath) : List FPath :=
  match runCli enum bwb parse fs p with
  | .error _ => []
  | .ok (_, rs) => rs.map Prod.fst

/-- Claim C2, refuted on the code: the order in which discovered workflow
files are processed is the iteration order of a Python set
(list({...}) in _resolve_metanode_paths), which the input does not
determine — two runs differing only in their set enumeration (both valid
enumerations of the same match set) process the same input in different
orders and produce different run_cli outputs. -/
theorem c2_processing_order_not_determined_by_input :
    IsSetEnum (rglobMatches fs2 dirPath1 ("workflow.knime"))
      (dedupF (rglobMatches fs2 dirPath1 ("workflow.knime"))) ∧
    IsSetEnum (rglobMatches fs2 dirPath1 ("workflow.knime"))
      (enumRev (rglobMatches fs2 dirPath1 ("workflow.knime"))) ∧
    runOrder dedupF bwb0 parseEmpty fs2 dirPath1 = [wfFile1, wfFile2] ∧
    runOrder enumRev bwb0 parseEmpty fs2 dirPath1 = [wfFile2, wfFile1] ∧
    runOrder dedupF bwb0 parseEmpty fs2 dirPath1 ≠
      runOrder enumRev bwb0 parseEmpty fs2 dirPath1 ∧
    runCli dedupF bwb0 parseEmpty fs2 dirPath1 ≠
      runCli enumRev bwb0 parseEmpty fs2 dirPath1 :=
  ⟨dedupF_isSetEnum _, revDedupF_isSetEnum _,
   by decide, by decide, by decide, by decide⟩
